import Mathlib

/-!
# Verification of the AI-Therapist backend core

Shallow embedding, in Lean 4, of the core data stores and the streaming
bridge of the AI-Therapist Django backend
(`backend/api/utils.py`, `backend/api/consumers.py`,
`backend/api/session_store.py`, `backend/api/views.py`), together with
theorems settling the specification claims about them.

Modelling conventions:
* Python `float` timestamps (`time.time()`) are modelled as rationals `ℚ`.
* Python `dict`s (which preserve insertion order and have unique keys) are
  modelled as association lists in insertion order.
* `collections.deque(maxlen=n)` is modelled as a list on which an append
  drops elements from the front once the length would exceed `n`.
* Python string operations used by the code (`str.startswith`,
  `str.lower`, `str.strip`, `str.split(' ')`) are modelled on the
  character list underlying a Lean `String`.
-/

namespace AITherapist

/-! ## Python string primitives -/

/-- Python `s.startswith(p)`. -/
def pyStartsWith (s p : String) : Bool := p.toList.isPrefixOf s.toList

/-- Python `s.lower()` (ASCII view, which covers every tag the code uses). -/
def pyLower (s : String) : String := ⟨s.data.map Char.toLower⟩

/-- Python `s.lower().strip()`: lowercase, then drop leading and trailing
whitespace. -/
def pyLowerStrip (s : String) : String :=
  ⟨(((s.data.map Char.toLower).dropWhile Char.isWhitespace).reverse.dropWhile
      Char.isWhitespace).reverse⟩

/-- Python `s.split(' ')` on a character list: split at every single space
character; `[] ↦ [[]]`, like `"".split(' ') == ['']`. -/
def pySplitSpace : List Char → List (List Char)
  | [] => [[]]
  | c :: rest =>
    match pySplitSpace rest with
    | [] => [[]]
    | w :: ws => if c = ' ' then [] :: w :: ws else (c :: w) :: ws

/-! ## deque(maxlen=n) -/

/-- Python `deque(maxlen = maxlen).append x`: append on the right, dropping from the
left whenever the length would exceed `maxlen`. -/
def dequePush {α : Type} (maxlen : ℕ) (l : List α) (x : α) : List α :=
  let l2 := l ++ [x]
  if maxlen < l2.length then l2.drop (l2.length - maxlen) else l2

/-! ## MetricsTracker (`backend/api/utils.py`, lines 65–121) -/

/-- The mutable state of `MetricsTracker`; `latencies` is a
`deque(maxlen=1000)`. -/
structure MetricsTracker where
  total_requests : ℕ
  gemini_requests : ℕ
  local_requests : ℕ
  fallback_requests : ℕ
  rate_limited_requests : ℕ
  latencies : List ℕ
deriving Repr, DecidableEq

/-- Python `MetricsTracker.__init__`. -/
def MetricsTracker.init : MetricsTracker :=
  { total_requests := 0, gemini_requests := 0, local_requests := 0
    fallback_requests := 0, rate_limited_requests := 0, latencies := [] }

/-- The `maxlen` of the latency deque. -/
def latenciesMaxlen : ℕ := 1000

/-- Python `MetricsTracker.record_request(latency_ms, source)`. -/
def MetricsTracker.record_request (m : MetricsTracker) (latency_ms : ℕ)
    (source : String) : MetricsTracker :=
  let m1 := { m with
    total_requests := m.total_requests + 1
    latencies := dequePush latenciesMaxlen m.latencies latency_ms }
  if pyStartsWith source "gemini" then
    { m1 with gemini_requests := m1.gemini_requests + 1 }
  else if pyStartsWith source "local" then
    { m1 with local_requests := m1.local_requests + 1 }
  else
    { m1 with fallback_requests := m1.fallback_requests + 1 }

/-- Python `MetricsTracker.record_rate_limit()`. -/
def MetricsTracker.record_rate_limit (m : MetricsTracker) : MetricsTracker :=
  { m with rate_limited_requests := m.rate_limited_requests + 1 }

/-- The dictionary returned by `MetricsTracker.get_metrics`. -/
structure MetricsSnapshot where
  total_requests : ℕ
  gemini_requests : ℕ
  local_requests : ℕ
  fallback_requests : ℕ
  rate_limited_requests : ℕ
  latency_median_ms : ℕ
  latency_p95_ms : ℕ
deriving Repr, DecidableEq

/-- Python `MetricsTracker.get_metrics()`.  The state is returned unchanged as the
second component: the computation works on a sorted copy and never mutates
the sample buffer.  `int(len(sorted_latencies) * 0.95)` is modelled as
`n * 95 / 100` (natural floor division): for every `n ≤ 1000` — the deque
bound — the CPython double product `n * 0.95` truncates to exactly
`⌊19n/20⌋`, since no `n·(19/20)` lies within one part in `10^15` of the
wrong side of an integer for such `n`. -/
def MetricsTracker.get_metrics (m : MetricsTracker) :
    MetricsSnapshot × MetricsTracker :=
  let latencies := m.latencies
  let sorted_latencies := latencies.insertionSort (· ≤ ·)
  let n := sorted_latencies.length
  let median := if latencies = [] then 0 else sorted_latencies.getD (n / 2) 0
  let p95_idx := n * 95 / 100
  let p95 := if latencies = [] then 0
    else sorted_latencies.getD (min p95_idx (n - 1)) 0
  ({ total_requests := m.total_requests
     gemini_requests := m.gemini_requests
     local_requests := m.local_requests
     fallback_requests := m.fallback_requests
     rate_limited_requests := m.rate_limited_requests
     latency_median_ms := median
     latency_p95_ms := p95 }, m)

/-! ## RateLimiter (`backend/api/utils.py`, lines 25–54)

The limiter keeps one deque of request timestamps per client.  All claims
are per-client, so the state is the timestamp list of the single client.  The
`while … popleft()` loop removes entries `< now - 60` from the front, which
on the (always sorted) deque is `List.dropWhile`. -/

/-- Python `RateLimiter.is_allowed(client_ip)` for one client: returns the decision
and the updated timestamp deque of the client. -/
def RateLimiter.is_allowed (calls_per_minute : ℕ) (now : ℚ)
    (window : List ℚ) : Bool × List ℚ :=
  let kept := window.dropWhile (fun t => decide (t < now - 60))
  if kept.length < calls_per_minute then (true, kept ++ [now])
  else (false, kept)

/-- Run a sequence of `is_allowed` calls (their `time.time()` values) for one
client, collecting the per-call `(now, decision)` trace and the final deque. -/
def runLimiter (calls_per_minute : ℕ) (window : List ℚ) :
    List ℚ → List (ℚ × Bool) × List ℚ
  | [] => ([], window)
  | t :: ts =>
    let r := RateLimiter.is_allowed calls_per_minute t window
    let rest := runLimiter calls_per_minute r.2 ts
    ((t, r.1) :: rest.1, rest.2)

/-- The calls of a trace that were admitted (returned `true`) inside the
trailing 60-second window ending at `T`. -/
def admittedIn (trace : List (ℚ × Bool)) (T : ℚ) : ℕ :=
  (trace.filter
    (fun p => p.2 && decide (T - 60 ≤ p.1) && decide (p.1 ≤ T))).length

/-- The times of the admitted calls of a trace, in call order. -/
def admits (trace : List (ℚ × Bool)) : List ℚ :=
  (trace.filter (fun p => p.2)).map Prod.fst

/-! ## ResponseCache (`backend/api/utils.py`, lines 128–174)

The cache dict `{key: (response, timestamp)}` is modelled as a list of
entries in dict insertion order.  The code keys on
`hash(f"{provider_prefix}:{prompt.lower().strip()}")`; we model the hash as
injective by storing the full normalised key string (design note §9 of the spec marks
this as the equivalent safe strategy).  `del cache[key]` removes the single
binding of `key`; since dict keys are unique in every state the program can
reach, removing every entry with that key is the same operation on the
model. -/

/-- One cache binding. -/
structure CacheEntry where
  key : String
  response : String
  timestamp : ℚ
deriving Repr, DecidableEq

/-- The cache dict, in insertion order. -/
abbrev Cache := List CacheEntry

/-- Python `ResponseCache._make_key(prompt, provider)` (hash modelled as the
identity on the normalised string). -/
def ResponseCache.make_key (prompt provider : String) : String :=
  (if provider = "" then "default" else pyLowerStrip provider) ++ ":" ++
    pyLowerStrip prompt

/-- Dict lookup `cache[key]`, first binding in insertion order. -/
def cacheFind : Cache → String → Option (String × ℚ)
  | [], _ => none
  | e :: rest, key =>
    if e.key == key then some (e.response, e.timestamp) else cacheFind rest key

/-- Python `del cache[key]` (see the note above: all bindings of `key` go). -/
def cacheDelete (c : Cache) (key : String) : Cache :=
  c.filter (fun e => !(e.key == key))

/-- Dict assignment `cache[key] = (response, now)`: overwrite in place if the
key is bound, else append. -/
def dictInsert : Cache → String → String → ℚ → Cache
  | [], key, resp, now => [⟨key, resp, now⟩]
  | e :: rest, key, resp, now =>
    if e.key == key then ⟨key, resp, now⟩ :: rest
    else e :: dictInsert rest key resp now

/-- Python `min(cache.keys(), key=lambda k: cache[k][1])`: the first entry (in dict
iteration order) attaining the minimal timestamp; `none` on the empty dict
(where the CPython `min` raises `ValueError`). -/
def oldestEntry : Cache → Option CacheEntry
  | [] => none
  | e :: rest =>
    match oldestEntry rest with
    | none => some e
    | some e2 => if e2.timestamp < e.timestamp then some e2 else some e

/-- Python `ResponseCache.get(prompt, provider)` at time `now`: the cached value if
younger than `ttl_seconds`, deleting an expired entry on read. -/
def ResponseCache.get (ttl_seconds : ℚ) (c : Cache) (prompt provider : String)
    (now : ℚ) : Option String × Cache :=
  let key := ResponseCache.make_key prompt provider
  match cacheFind c key with
  | some (resp, ts) =>
    if now - ts < ttl_seconds then (some resp, c)
    else (none, cacheDelete c key)
  | none => (none, c)

/-- Python `ResponseCache.set(prompt, response, provider)` at time `now`: evict the
oldest-timestamp entry when at capacity, then insert unconditionally. -/
def ResponseCache.set (max_size : ℕ) (c : Cache)
    (prompt response provider : String) (now : ℚ) : Cache :=
  let key := ResponseCache.make_key prompt provider
  let c2 :=
    if max_size ≤ c.length then
      match oldestEntry c with
      | some e => cacheDelete c e.key
      | none => c
    else c
  dictInsert c2 key response now

/-- One externally visible `ResponseCache` operation. -/
inductive CacheOp
  | get (prompt provider : String) (now : ℚ)
  | set (prompt response provider : String) (now : ℚ)

/-- Apply one cache operation to the state. -/
def applyCacheOp (max_size : ℕ) (ttl_seconds : ℚ) (c : Cache) :
    CacheOp → Cache
  | .get prompt provider now =>
    (ResponseCache.get ttl_seconds c prompt provider now).2
  | .set prompt response provider now =>
    ResponseCache.set max_size c prompt response provider now

/-- Run a sequence of cache operations from a given state. -/
def runCache (max_size : ℕ) (ttl_seconds : ℚ) (c : Cache) :
    List CacheOp → Cache
  | [] => c
  | op :: ops => runCache max_size ttl_seconds
      (applyCacheOp max_size ttl_seconds c op) ops

/-! ## ConversationStore (`backend/api/session_store.py`)

`_messages : Dict[str, Deque[Tuple[str, str, float]]]` is modelled as an
association list of `(session_id, turns)` in insertion order; each turn
deque is a list with `deque(maxlen=max_messages)` push semantics. -/

/-- One stored turn `(role, content, timestamp)`. -/
structure TurnEntry where
  role : String
  content : String
  timestamp : ℚ
deriving Repr, DecidableEq

/-- The `_messages` dict, in insertion order. -/
abbrev ConvStore := List (String × List TurnEntry)

/-- Dict lookup `_messages[session_id]`. -/
def storeFind : ConvStore → String → Option (List TurnEntry)
  | [], _ => none
  | e :: rest, sid => if e.1 == sid then some e.2 else storeFind rest sid

/-- Dict assignment `_messages[session_id] = turns`. -/
def storeInsert : ConvStore → String → List TurnEntry → ConvStore
  | [], sid, turns => [(sid, turns)]
  | e :: rest, sid, turns =>
    if e.1 == sid then (sid, turns) :: rest
    else e :: storeInsert rest sid turns

/-- Python `ConversationStore._purge_expired()` at time `now`: delete every session
whose most recent turn is older than `ttl_seconds`. -/
def ConversationStore.purge_expired (ttl_seconds now : ℚ) (s : ConvStore) :
    ConvStore :=
  s.filter (fun e =>
    match e.2.getLast? with
    | none => true
    | some last => decide (now - last.timestamp ≤ ttl_seconds))

/-- Python `ConversationStore.add(session_id, role, content)` at time `now`. -/
def ConversationStore.add (max_messages : ℕ) (ttl_seconds : ℚ)
    (s : ConvStore) (session_id role content : String) (now : ℚ) : ConvStore :=
  let s1 := ConversationStore.purge_expired ttl_seconds now s
  let turns := (storeFind s1 session_id).getD []
  storeInsert s1 session_id
    (dequePush max_messages turns ⟨role, content, now⟩)

/-- Python `ConversationStore.get(session_id)` at time `now`: the `(role, content)`
pairs in stored (oldest-first) order, plus the purged store. -/
def ConversationStore.get (ttl_seconds : ℚ) (s : ConvStore)
    (session_id : String) (now : ℚ) : List (String × String) × ConvStore :=
  let s1 := ConversationStore.purge_expired ttl_seconds now s
  match storeFind s1 session_id with
  | none => ([], s1)
  | some turns => (turns.map (fun t => (t.role, t.content)), s1)

/-- One externally visible `ConversationStore` operation. -/
inductive ConvOp
  | add (session_id role content : String) (now : ℚ)
  | get (session_id : String) (now : ℚ)

/-- Apply one store operation to the state. -/
def applyConvOp (max_messages : ℕ) (ttl_seconds : ℚ) (s : ConvStore) :
    ConvOp → ConvStore
  | .add sid role content now =>
    ConversationStore.add max_messages ttl_seconds s sid role content now
  | .get sid now => (ConversationStore.get ttl_seconds s sid now).2

/-- Run a sequence of store operations from a given state. -/
def runConv (max_messages : ℕ) (ttl_seconds : ℚ) (s : ConvStore) :
    List ConvOp → ConvStore
  | [] => s
  | op :: ops => runConv max_messages ttl_seconds
      (applyConvOp max_messages ttl_seconds s op) ops

/-! ## Provider normalisation (`backend/api/utils.py`, lines 190–194) -/

/-- Python `normalize_provider(provider)`; the value `settings.DEFAULT_LLM_PROVIDER` (already
lowercased by `settings.py`) is passed as `default_provider`. -/
def normalize_provider (default_provider provider : String) : String :=
  let pn := pyLower (if provider = "" then default_provider else provider)
  if pn = "gemini" ∨ pn = "local" then pn else "gemini"

/-! ## StreamConsumer (`backend/api/consumers.py`, lines 79–178)

The observable behaviour of the bridge is the ordered list of JSON events it
sends over the socket for one exchange.  The blocking producer runs in a
worker thread, pushing each yielded fragment and then a `None` sentinel
(in a `finally`) into a FIFO `asyncio.Queue`; the consumer loop forwards
every queued fragment as a `token` event, stops at the sentinel, and only
then awaits the producer future — so when the producer raised, every
fragment it yielded before raising has already been forwarded, the `done`
event is never reached, and the exception propagates to `stream_response`,
which falls back.  A producer run is therefore abstracted as the fragments
it yielded plus whether it ended by raising. -/

/-- One server→client stream event. -/
inductive Event
  | start (source : String)
  | token (content : String)
  | done (source : String)
  | error (message : String)
deriving Repr, DecidableEq

/-- One run of the streaming responder: the fragments yielded, and for
`fail` the fact that it then raised. -/
inductive ProducerRun
  | ok (chunks : List String)
  | fail (chunks : List String)
deriving Repr, DecidableEq

/-- Events sent by `StreamConsumer.stream_llm_response`, plus whether it
re-raised (after which no further event is sent by it). -/
def stream_llm_response_events (provider : String) (run : ProducerRun) :
    List Event × Bool :=
  match run with
  | .ok chunks =>
    (Event.start provider :: (chunks.map Event.token ++ [Event.done provider]),
      false)
  | .fail chunks =>
    (Event.start provider :: chunks.map Event.token, true)

/-- The per-word simulated token stream of
`StreamConsumer.stream_fallback_response`: `response.split(' ')`, each word
re-joined with its separating space except the last. -/
def fallbackTokenList (response : String) : List String :=
  let words := (pySplitSpace response.data).map (fun w => String.mk w)
  (List.range words.length).map (fun i =>
    (words.getD i "") ++ (if i < words.length - 1 then " " else ""))

/-- Events sent by `StreamConsumer.stream_fallback_response`. -/
def stream_fallback_response_events (response : String) : List Event :=
  Event.start "fallback" ::
    ((fallbackTokenList response).map Event.token ++ [Event.done "fallback"])

/-- Events of one whole exchange, `StreamConsumer.stream_response`: try the
provider stream; if it raises, run the fallback stream
(`fallback_response = get_fallback_response(user_text)`, whose template
choice is random and is passed in as a parameter). -/
def stream_response_events (provider : String) (run : ProducerRun)
    (fallback_response : String) : List Event :=
  match stream_llm_response_events provider run with
  | (evs, false) => evs
  | (evs, true) => evs ++ stream_fallback_response_events fallback_response

/-- Event classifiers. -/
def Event.isStart : Event → Bool
  | .start _ => true
  | _ => false

def Event.isDone : Event → Bool
  | .done _ => true
  | _ => false

def Event.isError : Event → Bool
  | .error _ => true
  | _ => false

/-! ## get_llm_response (`backend/api/utils.py`, lines 197–216) and
DialogueView.post (`backend/api/views.py`, lines 63–115)

The remote/local responder is an external effect; one invocation is
abstracted as `Option String`: `some text` when the chosen responder
returns `text` (its source tag then equals the normalised provider, which
is what both `get_gemini_response` and the `local` branch produce), `none`
when it raises.  `get_llm_response` then either answers from the cache
(tagged `"<provider>-cache"`), or stores the fresh response in the cache,
or lets the exception propagate (`none`) with the cache not written. -/

/-- Python `get_llm_response(user_text, provider)` at time `now`, given the
responder outcome: `(some (response, source) | none-for-raise, new cache)`.
Note the Python `if cached:` treats an empty cached string as a miss. -/
def get_llm_response (max_size : ℕ) (ttl_seconds : ℚ)
    (default_provider : String) (c : Cache) (user_text provider : String)
    (outcome : Option String) (now : ℚ) :
    Option (String × String) × Cache :=
  let p := normalize_provider default_provider provider
  let hit := ResponseCache.get ttl_seconds c user_text p now
  let onMiss : Option (String × String) × Cache :=
    match outcome with
    | some text =>
      (some (text, p), ResponseCache.set max_size hit.2 user_text text p now)
    | none => (none, hit.2)
  match hit.1 with
  | some cached => if cached = "" then onMiss else (some (cached, p ++ "-cache"), hit.2)
  | none => onMiss

/-- The shared mutable stores touched by `DialogueView.post`. -/
structure ServerState where
  cache : Cache
  metrics : MetricsTracker
  conversations : ConvStore
deriving Repr, DecidableEq

/-- The 200-response body of `DialogueView.post`. -/
structure DialogueResponse where
  response : String
  source : String
  latency_ms : ℕ
  session_id : String
deriving Repr, DecidableEq

/-- Python `DialogueView.post` after validation and rate limiting have passed
(the path the cache-population claim is about): call `get_llm_response`;
on any responder exception use `get_fallback_response` (whose randomly
chosen template is the parameter `fallback_text`) with source
`"fallback"`; record metrics; append the turn pair.  `latency_ms` is the
measured wall-clock elapsed time. -/
def DialogueView.post (max_size max_messages : ℕ)
    (cache_ttl conv_ttl : ℚ) (default_provider : String) (st : ServerState)
    (user_text provider session_id : String) (outcome : Option String)
    (fallback_text : String) (now : ℚ) (latency_ms : ℕ) :
    DialogueResponse × ServerState :=
  let r := get_llm_response max_size cache_ttl default_provider st.cache
    user_text provider outcome now
  let response_source : String × String :=
    match r.1 with
    | some pair => pair
    | none => (fallback_text, "fallback")
  let response_text := response_source.1
  let source := response_source.2
  let metrics1 := st.metrics.record_request latency_ms source
  let conv1 := ConversationStore.add max_messages conv_ttl st.conversations
    session_id "user" user_text now
  let conv2 := ConversationStore.add max_messages conv_ttl conv1
    session_id "assistant" response_text now
  ({ response := response_text, source := source, latency_ms := latency_ms
     session_id := session_id },
   { cache := r.2, metrics := metrics1, conversations := conv2 })

/-! ## MetricsTracker operation sequences (for the counter invariants) -/

/-- One externally visible mutating `MetricsTracker` operation
(`get_metrics` leaves the state unchanged, as proved separately). -/
inductive MetricsOp
  | record (latency_ms : ℕ) (source : String)
  | rateLimit

/-- Apply one metrics operation. -/
def applyMetricsOp (m : MetricsTracker) : MetricsOp → MetricsTracker
  | .record latency_ms source => m.record_request latency_ms source
  | .rateLimit => m.record_rate_limit

/-- Run a sequence of metrics operations. -/
def runMetrics (m : MetricsTracker) : List MetricsOp → MetricsTracker
  | [] => m
  | op :: ops => runMetrics (applyMetricsOp m op) ops

/-- Modelled from the spec: the median of the latency samples as the words
of §4.4 of the spec describe it — middle element of the ascending sort, taking the
LOWER-middle element when the count is even.  Stated only to be compared
with `MetricsTracker.get_metrics`, which takes the upper-middle element. -/
def specMedianLowerMiddle (l : List ℕ) : ℕ :=
  let s := l.insertionSort (· ≤ ·)
  if s.length % 2 = 0 then s.getD (s.length / 2 - 1) 0
  else s.getD (s.length / 2) 0

/-! # Theorems -/

/-! ## Deque lemmas -/

theorem dequePush_length_le_of_le {α : Type} {maxlen : ℕ} {l : List α}
    (x : α) (h : l.length ≤ maxlen) : (dequePush maxlen l x).length ≤ maxlen := by
  unfold dequePush
  by_cases h2 : maxlen < (l ++ [x]).length
  · simp only [h2, if_true, List.length_drop]
    omega
  · simp only [h2, if_false]
    simp only [List.length_append, List.length_singleton] at h2 ⊢
    omega

/-- Pushing onto a deque that already holds exactly `maxlen ≥ 1` elements
drops the single oldest element. -/
theorem dequePush_full {α : Type} {maxlen : ℕ} {l : List α} (x : α)
    (hfull : l.length = maxlen) (hpos : 1 ≤ maxlen) :
    dequePush maxlen l x = l.tail ++ [x] := by
  unfold dequePush
  have hlen : (l ++ [x]).length = maxlen + 1 := by simp [hfull]
  have hlt : maxlen < (l ++ [x]).length := by omega
  simp only [hlt, if_true, hlen]
  have h1 : maxlen + 1 - maxlen = 1 := by omega
  rw [h1]
  cases l with
  | nil => simp at hfull; omega
  | cons a t => simp

/-! ## MetricsTracker lemmas -/

/-- Full description of one `record_request` call on the five counters:
`total_requests` gains one, exactly one classified counter gains one
(chosen by `startswith` on the source tag), `rate_limited_requests` is
untouched. -/
theorem record_request_counters (m : MetricsTracker) (latency_ms : ℕ)
    (source : String) :
    (m.record_request latency_ms source).total_requests = m.total_requests + 1 ∧
    (m.record_request latency_ms source).gemini_requests =
      m.gemini_requests + (if pyStartsWith source "gemini" then 1 else 0) ∧
    (m.record_request latency_ms source).local_requests =
      m.local_requests +
        (if !pyStartsWith source "gemini" && pyStartsWith source "local" then 1 else 0) ∧
    (m.record_request latency_ms source).fallback_requests =
      m.fallback_requests +
        (if !pyStartsWith source "gemini" && !pyStartsWith source "local" then 1 else 0) ∧
    (m.record_request latency_ms source).rate_limited_requests =
      m.rate_limited_requests := by
  unfold MetricsTracker.record_request
  by_cases hg : pyStartsWith source "gemini" <;>
    by_cases hl : pyStartsWith source "local" <;>
      simp [hg, hl]

/-- The three classification increments always sum to one. -/
theorem record_request_one_increment (source : String) :
    (if pyStartsWith source "gemini" then (1 : ℕ) else 0) +
      (if !pyStartsWith source "gemini" && pyStartsWith source "local" then 1 else 0) +
      (if !pyStartsWith source "gemini" && !pyStartsWith source "local" then 1 else 0)
      = 1 := by
  by_cases hg : pyStartsWith source "gemini" <;>
    by_cases hl : pyStartsWith source "local" <;>
      simp [hg, hl]

/-- C1 (counterexample): the claim says a cache-hit source tag such as
`"gemini-cache"` increments the fallback counter.  It does not: since
`"gemini-cache".startswith("gemini")` holds, `record_request` increments the
gemini counter and leaves the fallback counter unchanged. -/
theorem C1_counterexample :
    (MetricsTracker.init.record_request 5 "gemini-cache").fallback_requests =
        MetricsTracker.init.fallback_requests ∧
      (MetricsTracker.init.record_request 5 "gemini-cache").gemini_requests =
        MetricsTracker.init.gemini_requests + 1 := by
  decide

/-- C1 (amended): every `record_request(latency_ms, source)` call increments
`total_requests`, increments the gemini counter iff the source tag starts
with `"gemini"` (which includes cache-hit tags like `"gemini-cache"`), else
the local counter iff it starts with `"local"`, else the fallback counter;
exactly one of the three classified counters changes per call, and the
rate-limited counter never does. -/
theorem C1_record_request_classification (m : MetricsTracker)
    (latency_ms : ℕ) (source : String) :
    (m.record_request latency_ms source).total_requests = m.total_requests + 1 ∧
    (m.record_request latency_ms source).gemini_requests =
      m.gemini_requests + (if pyStartsWith source "gemini" then 1 else 0) ∧
    (m.record_request latency_ms source).local_requests =
      m.local_requests +
        (if !pyStartsWith source "gemini" && pyStartsWith source "local" then 1 else 0) ∧
    (m.record_request latency_ms source).fallback_requests =
      m.fallback_requests +
        (if !pyStartsWith source "gemini" && !pyStartsWith source "local" then 1 else 0) ∧
    (m.record_request latency_ms source).rate_limited_requests =
      m.rate_limited_requests ∧
    (if pyStartsWith source "gemini" then (1 : ℕ) else 0) +
      (if !pyStartsWith source "gemini" && pyStartsWith source "local" then 1 else 0) +
      (if !pyStartsWith source "gemini" && !pyStartsWith source "local" then 1 else 0)
      = 1 := by
  refine ⟨(record_request_counters m latency_ms source).1,
    (record_request_counters m latency_ms source).2.1,
    (record_request_counters m latency_ms source).2.2.1,
    (record_request_counters m latency_ms source).2.2.2.1,
    (record_request_counters m latency_ms source).2.2.2.2,
    record_request_one_increment source⟩

/-! ## Metrics operation-sequence lemmas (C10) -/

theorem runMetrics_append (m : MetricsTracker) (ops more : List MetricsOp) :
    runMetrics m (ops ++ more) = runMetrics (runMetrics m ops) more := by
  induction ops generalizing m with
  | nil => rfl
  | cons op ops ih =>
    simp only [List.cons_append, runMetrics]
    exact ih (applyMetricsOp m op)

theorem applyMetricsOp_mono (m : MetricsTracker) (op : MetricsOp) :
    m.total_requests ≤ (applyMetricsOp m op).total_requests ∧
    m.gemini_requests ≤ (applyMetricsOp m op).gemini_requests ∧
    m.local_requests ≤ (applyMetricsOp m op).local_requests ∧
    m.fallback_requests ≤ (applyMetricsOp m op).fallback_requests ∧
    m.rate_limited_requests ≤ (applyMetricsOp m op).rate_limited_requests := by
  cases op with
  | record latency_ms source =>
    obtain ⟨h1, h2, h3, h4, h5⟩ := record_request_counters m latency_ms source
    simp only [applyMetricsOp, h1, h2, h3, h4, h5]
    omega
  | rateLimit =>
    simp only [applyMetricsOp, MetricsTracker.record_rate_limit]
    omega

theorem runMetrics_mono (ops : List MetricsOp) (m : MetricsTracker) :
    m.total_requests ≤ (runMetrics m ops).total_requests ∧
    m.gemini_requests ≤ (runMetrics m ops).gemini_requests ∧
    m.local_requests ≤ (runMetrics m ops).local_requests ∧
    m.fallback_requests ≤ (runMetrics m ops).fallback_requests ∧
    m.rate_limited_requests ≤ (runMetrics m ops).rate_limited_requests := by
  induction ops generalizing m with
  | nil => simp [runMetrics]
  | cons op ops ih =>
    obtain ⟨a1, a2, a3, a4, a5⟩ := applyMetricsOp_mono m op
    obtain ⟨b1, b2, b3, b4, b5⟩ := ih (applyMetricsOp m op)
    exact ⟨le_trans a1 b1, le_trans a2 b2, le_trans a3 b3,
      le_trans a4 b4, le_trans a5 b5⟩

theorem runMetrics_sum_invariant (ops : List MetricsOp) (m : MetricsTracker)
    (h : m.total_requests =
      m.gemini_requests + m.local_requests + m.fallback_requests) :
    (runMetrics m ops).total_requests =
      (runMetrics m ops).gemini_requests + (runMetrics m ops).local_requests +
        (runMetrics m ops).fallback_requests := by
  induction ops generalizing m with
  | nil => exact h
  | cons op ops ih =>
    refine ih (applyMetricsOp m op) ?_
    cases op with
    | record latency_ms source =>
      obtain ⟨h1, h2, h3, h4, _⟩ := record_request_counters m latency_ms source
      have hone := record_request_one_increment source
      simp only [applyMetricsOp, h1, h2, h3, h4]
      omega
    | rateLimit =>
      simpa only [applyMetricsOp, MetricsTracker.record_rate_limit] using h

/-- C10: after any sequence of `MetricsTracker` operations starting from the
initial state, `total_requests = gemini_requests + local_requests +
fallback_requests`; `record_request` adds one to the total and to exactly
one classified counter and leaves the rate-limited counter alone;
`record_rate_limit` touches only the rate-limited counter; and every
counter (all modelled as naturals, hence non-negative) is non-decreasing
along the sequence. -/
theorem C10_metrics_invariants :
    (∀ ops : List MetricsOp,
      (runMetrics MetricsTracker.init ops).total_requests =
        (runMetrics MetricsTracker.init ops).gemini_requests +
          (runMetrics MetricsTracker.init ops).local_requests +
          (runMetrics MetricsTracker.init ops).fallback_requests) ∧
    (∀ (m : MetricsTracker) (latency_ms : ℕ) (source : String),
      (m.record_request latency_ms source).total_requests = m.total_requests + 1 ∧
      (m.record_request latency_ms source).gemini_requests +
          (m.record_request latency_ms source).local_requests +
          (m.record_request latency_ms source).fallback_requests =
        m.gemini_requests + m.local_requests + m.fallback_requests + 1 ∧
      (m.record_request latency_ms source).rate_limited_requests =
        m.rate_limited_requests) ∧
    (∀ m : MetricsTracker,
      m.record_rate_limit.rate_limited_requests = m.rate_limited_requests + 1 ∧
      m.record_rate_limit.total_requests = m.total_requests ∧
      m.record_rate_limit.gemini_requests = m.gemini_requests ∧
      m.record_rate_limit.local_requests = m.local_requests ∧
      m.record_rate_limit.fallback_requests = m.fallback_requests) ∧
    (∀ ops more : List MetricsOp,
      (runMetrics MetricsTracker.init ops).total_requests ≤
        (runMetrics MetricsTracker.init (ops ++ more)).total_requests ∧
      (runMetrics MetricsTracker.init ops).gemini_requests ≤
        (runMetrics MetricsTracker.init (ops ++ more)).gemini_requests ∧
      (runMetrics MetricsTracker.init ops).local_requests ≤
        (runMetrics MetricsTracker.init (ops ++ more)).local_requests ∧
      (runMetrics MetricsTracker.init ops).fallback_requests ≤
        (runMetrics MetricsTracker.init (ops ++ more)).fallback_requests ∧
      (runMetrics MetricsTracker.init ops).rate_limited_requests ≤
        (runMetrics MetricsTracker.init (ops ++ more)).rate_limited_requests) := by
  refine ⟨fun ops => runMetrics_sum_invariant ops MetricsTracker.init rfl,
    fun m latency_ms source => ?_, fun m => ?_, fun ops more => ?_⟩
  · obtain ⟨h1, h2, h3, h4, h5⟩ := record_request_counters m latency_ms source
    have hone := record_request_one_increment source
    refine ⟨h1, ?_, h5⟩
    omega
  · simp [MetricsTracker.record_rate_limit]
  · rw [runMetrics_append]
    exact runMetrics_mono more (runMetrics MetricsTracker.init ops)

/-! ## get_metrics percentile lemmas (C2) -/

/-- C2 (counterexample): on the even-count sample buffer `[10, 20]` the code
returns the UPPER-middle element `20` of the ascending sort, not the
lower-middle element `10` the claim describes. -/
theorem C2_counterexample :
    (({ total_requests := 0, gemini_requests := 0, local_requests := 0,
        fallback_requests := 0, rate_limited_requests := 0,
        latencies := [10, 20] } : MetricsTracker).get_metrics.1.latency_median_ms
      = 20) ∧
    specMedianLowerMiddle [10, 20] = 10 ∧
    (({ total_requests := 0, gemini_requests := 0, local_requests := 0,
        fallback_requests := 0, rate_limited_requests := 0,
        latencies := [10, 20] } : MetricsTracker).get_metrics.1.latency_median_ms
      ≠ specMedianLowerMiddle [10, 20]) := by
  decide

/-- C2 (amended): for every non-empty sample buffer, the snapshot median
is the element of the ascending-sorted samples at index `⌊count / 2⌋` (the
UPPER-middle element on even counts), and the p95 value is the sorted
element at index `⌊count * 0.95⌋` clamped to the last valid index; on
`[10, 20, 30, 40, 50]` the median is `30` and the p95 value is `50`; and
`get_metrics` returns the tracker state unchanged (the buffer is never
mutated). -/
theorem C2_get_metrics_percentiles :
    (∀ m : MetricsTracker, m.latencies ≠ [] →
      ∃ s : List ℕ, s.Perm m.latencies ∧ s.Sorted (· ≤ ·) ∧
        m.get_metrics.1.latency_median_ms = s.getD (s.length / 2) 0 ∧
        m.get_metrics.1.latency_p95_ms =
          s.getD (min (s.length * 95 / 100) (s.length - 1)) 0) ∧
    (∀ m : MetricsTracker, m.get_metrics.2 = m) ∧
    (∀ m : MetricsTracker, m.latencies = [10, 20, 30, 40, 50] →
      m.get_metrics.1.latency_median_ms = 30 ∧
        m.get_metrics.1.latency_p95_ms = 50) := by
  refine ⟨fun m h => ?_, fun m => rfl, fun m h => ?_⟩
  · refine ⟨m.latencies.insertionSort (· ≤ ·),
      List.perm_insertionSort (· ≤ ·) m.latencies,
      List.sorted_insertionSort (· ≤ ·) m.latencies, ?_, ?_⟩ <;>
      simp [MetricsTracker.get_metrics, h]
  · have : m.get_metrics.1.latency_median_ms = 30 ∧
        m.get_metrics.1.latency_p95_ms = 50 := by
      simp only [MetricsTracker.get_metrics, h]
      decide
    exact this

/-- Witness for `C2_get_metrics_percentiles` at the example buffer of the spec. -/
theorem C2_get_metrics_percentiles_witness :
    (({ total_requests := 0, gemini_requests := 0, local_requests := 0,
        fallback_requests := 0, rate_limited_requests := 0,
        latencies := [10, 20, 30, 40, 50] } : MetricsTracker).latencies
      = [10, 20, 30, 40, 50]) ∧
    (({ total_requests := 0, gemini_requests := 0, local_requests := 0,
        fallback_requests := 0, rate_limited_requests := 0,
        latencies := [10, 20, 30, 40, 50] } : MetricsTracker).get_metrics.1.latency_median_ms
      = 30 ∧
     ({ total_requests := 0, gemini_requests := 0, local_requests := 0,
        fallback_requests := 0, rate_limited_requests := 0,
        latencies := [10, 20, 30, 40, 50] } : MetricsTracker).get_metrics.1.latency_p95_ms
      = 50) :=
  ⟨rfl, C2_get_metrics_percentiles.2.2 _ rfl⟩

/-! ## Stream bridge lemmas (C3, C4) -/

/-- C3: a streaming responder that yields `["Hel", "lo", " wor", "ld"]` and
terminates normally makes the bridge emit exactly
`start, token "Hel", token "lo", token " wor", token "ld", done` — in that
order, with no error event, no reordering and no duplicated fragment. -/
theorem C3_stream_happy_path (provider fallback_response : String) :
    stream_response_events provider (.ok ["Hel", "lo", " wor", "ld"])
        fallback_response =
      [Event.start provider, Event.token "Hel", Event.token "lo",
        Event.token " wor", Event.token "ld", Event.done provider] := rfl

theorem getLast?_snoc {α : Type} (l : List α) (a : α) :
    (l ++ [a]).getLast? = some a := by
  induction l with
  | nil => rfl
  | cons b l ih =>
    cases l with
    | nil => rfl
    | cons c l2 =>
      show (b :: c :: (l2 ++ [a])).getLast? = some a
      rw [List.getLast?_cons_cons]
      exact ih

theorem countP_map_token (p : Event → Bool) (l : List String)
    (h : ∀ s, p (Event.token s) = false) :
    (l.map Event.token).countP p = 0 := by
  induction l with
  | nil => rfl
  | cons a l ih => simp [List.countP_cons, h, ih]

/-- C4: whenever the streaming responder raises — before or after yielding
any prefix of fragments — the exchange ends with exactly one `done` event,
that event is tagged with the fallback source and is the last event of the
exchange, no `error` event is emitted, and exactly two `start` events (the
one of the provider and one of the fallback) appear. -/
theorem C4_stream_fallback (provider : String) (chunks : List String)
    (fallback_response : String) :
    (stream_response_events provider (.fail chunks) fallback_response).countP
        Event.isDone = 1 ∧
    (stream_response_events provider (.fail chunks)
        fallback_response).getLast? = some (Event.done "fallback") ∧
    (stream_response_events provider (.fail chunks) fallback_response).countP
        Event.isError = 0 ∧
    (stream_response_events provider (.fail chunks) fallback_response).countP
        Event.isStart = 2 := by
  have hd := countP_map_token Event.isDone chunks (fun s => rfl)
  have he := countP_map_token Event.isError chunks (fun s => rfl)
  have hs := countP_map_token Event.isStart chunks (fun s => rfl)
  have hd2 := countP_map_token Event.isDone (fallbackTokenList fallback_response)
    (fun s => rfl)
  have he2 := countP_map_token Event.isError (fallbackTokenList fallback_response)
    (fun s => rfl)
  have hs2 := countP_map_token Event.isStart (fallbackTokenList fallback_response)
    (fun s => rfl)
  refine ⟨?_, ?_, ?_, ?_⟩
  · simp [stream_response_events, stream_llm_response_events,
      stream_fallback_response_events, List.countP_append, List.countP_cons,
      hd, hd2, Event.isDone]
  · have heq : stream_response_events provider (.fail chunks) fallback_response
        = (Event.start provider :: (chunks.map Event.token ++
            Event.start "fallback" ::
              (fallbackTokenList fallback_response).map Event.token)) ++
          [Event.done "fallback"] := by
      simp [stream_response_events, stream_llm_response_events,
        stream_fallback_response_events]
    rw [heq, getLast?_snoc]
  · simp [stream_response_events, stream_llm_response_events,
      stream_fallback_response_events, List.countP_append, List.countP_cons,
      he, he2, Event.isError]
  · simp [stream_response_events, stream_llm_response_events,
      stream_fallback_response_events, List.countP_append, List.countP_cons,
      hs, hs2, Event.isStart]

/-! ## ResponseCache lemmas (C7, C8) -/

theorem cacheFind_dictInsert_self (c : Cache) (key resp : String) (now : ℚ) :
    cacheFind (dictInsert c key resp now) key = some (resp, now) := by
  induction c with
  | nil => simp [dictInsert, cacheFind]
  | cons e rest ih =>
    by_cases h : e.key == key
    · simp [dictInsert, h, cacheFind]
    · simp [dictInsert, h, cacheFind, ih]

theorem cacheFind_cacheDelete_self (c : Cache) (key : String) :
    cacheFind (cacheDelete c key) key = none := by
  induction c with
  | nil => rfl
  | cons e rest ih =>
    by_cases h : e.key == key
    · simpa [cacheDelete, h] using ih
    · simpa [cacheDelete, h, cacheFind] using ih

theorem dictInsert_length_le (c : Cache) (key resp : String) (now : ℚ) :
    (dictInsert c key resp now).length ≤ c.length + 1 := by
  induction c with
  | nil => simp [dictInsert]
  | cons e rest ih =>
    by_cases h : e.key == key
    · simp [dictInsert, h]
    · simp only [dictInsert, h, Bool.false_eq_true, if_false, List.length_cons]
      omega

theorem cacheDelete_length_le (c : Cache) (key : String) :
    (cacheDelete c key).length ≤ c.length :=
  List.length_filter_le _ c

theorem cacheDelete_length_lt {c : Cache} {e : CacheEntry} (he : e ∈ c) :
    (cacheDelete c e.key).length < c.length := by
  induction c with
  | nil => cases he
  | cons a rest ih =>
    rcases List.mem_cons.mp he with rfl | hmem
    · simp only [cacheDelete, List.filter_cons, beq_self_eq_true,
        Bool.not_true, Bool.false_eq_true, if_false, List.length_cons]
      have := cacheDelete_length_le rest e.key
      unfold cacheDelete at this
      omega
    · by_cases h : a.key == e.key
      · simp only [cacheDelete, List.filter_cons, h, Bool.not_true,
          Bool.false_eq_true, if_false, List.length_cons]
        have := cacheDelete_length_le rest e.key
        unfold cacheDelete at this
        omega
      · simp only [cacheDelete, List.filter_cons, h, Bool.not_false, if_true,
          List.length_cons]
        have := ih hmem
        unfold cacheDelete at this
        omega

theorem oldestEntry_isSome {c : Cache} (h : c ≠ []) :
    ∃ e, oldestEntry c = some e := by
  cases c with
  | nil => exact absurd rfl h
  | cons a rest =>
    unfold oldestEntry
    cases hr : oldestEntry rest with
    | none => exact ⟨a, rfl⟩
    | some e2 =>
      by_cases ht : e2.timestamp < a.timestamp
      · exact ⟨e2, by simp [ht]⟩
      · exact ⟨a, by simp [ht]⟩

theorem oldestEntry_mem : ∀ {c : Cache} {e : CacheEntry},
    oldestEntry c = some e → e ∈ c := by
  intro c
  induction c with
  | nil => intro e h; cases h
  | cons a rest ih =>
    intro e h
    cases hr : oldestEntry rest with
    | none =>
      simp only [oldestEntry, hr, Option.some.injEq] at h
      subst h
      exact List.mem_cons_self a rest
    | some e2 =>
      simp only [oldestEntry, hr] at h
      by_cases ht : e2.timestamp < a.timestamp
      · rw [if_pos ht, Option.some.injEq] at h
        subst h
        exact List.mem_cons_of_mem a (ih hr)
      · rw [if_neg ht, Option.some.injEq] at h
        subst h
        exact List.mem_cons_self a rest

theorem oldestEntry_min : ∀ {c : Cache} {e : CacheEntry},
    oldestEntry c = some e → ∀ x ∈ c, e.timestamp ≤ x.timestamp := by
  intro c
  induction c with
  | nil => intro e h; cases h
  | cons a rest ih =>
    intro e h x hx
    cases hr : oldestEntry rest with
    | none =>
      simp only [oldestEntry, hr, Option.some.injEq] at h
      subst h
      cases rest with
      | nil =>
        rcases List.mem_cons.mp hx with rfl | hmem
        · exact le_refl _
        · cases hmem
      | cons b rest2 =>
        obtain ⟨e3, he3⟩ := oldestEntry_isSome (c := b :: rest2) (by simp)
        rw [he3] at hr
        cases hr
    | some e2 =>
      simp only [oldestEntry, hr] at h
      rcases List.mem_cons.mp hx with rfl | hmem
      · by_cases ht : e2.timestamp < x.timestamp
        · rw [if_pos ht, Option.some.injEq] at h; subst h; exact le_of_lt ht
        · rw [if_neg ht, Option.some.injEq] at h; subst h; exact le_refl _
      · by_cases ht : e2.timestamp < a.timestamp
        · rw [if_pos ht, Option.some.injEq] at h; subst h; exact ih hr x hmem
        · rw [if_neg ht, Option.some.injEq] at h
          subst h
          exact le_trans (not_lt.mp ht) (ih hr x hmem)

/-- C7: after `set` stores a response for a `(prompt, provider)` pair at time
`t0`, `get` returns that response verbatim (cache unchanged) whenever called
with `now - t0 < ttl_seconds`; once `ttl_seconds` has elapsed, `get` returns
nothing and deletes the expired entry on that read, after which the key is
absent and every further `get` for the pair misses without further change —
a fresh cache miss occurs exactly once until the pair is stored again. -/
theorem C7_cache_ttl (max_size : ℕ) (ttl_seconds : ℚ) (c : Cache)
    (prompt provider response : String) (t0 : ℚ) :
    (∀ now, now - t0 < ttl_seconds →
      ResponseCache.get ttl_seconds
          (ResponseCache.set max_size c prompt response provider t0)
          prompt provider now =
        (some response,
          ResponseCache.set max_size c prompt response provider t0)) ∧
    (∀ now, ttl_seconds ≤ now - t0 →
      ResponseCache.get ttl_seconds
          (ResponseCache.set max_size c prompt response provider t0)
          prompt provider now =
        (none,
          cacheDelete (ResponseCache.set max_size c prompt response provider t0)
            (ResponseCache.make_key prompt provider)) ∧
      cacheFind
          (cacheDelete (ResponseCache.set max_size c prompt response provider t0)
            (ResponseCache.make_key prompt provider))
          (ResponseCache.make_key prompt provider) = none ∧
      (∀ now2,
        ResponseCache.get ttl_seconds
            (cacheDelete
              (ResponseCache.set max_size c prompt response provider t0)
              (ResponseCache.make_key prompt provider))
            prompt provider now2 =
          (none,
            cacheDelete
              (ResponseCache.set max_size c prompt response provider t0)
              (ResponseCache.make_key prompt provider)))) := by
  have hfind : cacheFind
      (ResponseCache.set max_size c prompt response provider t0)
      (ResponseCache.make_key prompt provider) = some (response, t0) := by
    simp only [ResponseCache.set]
    exact cacheFind_dictInsert_self _ _ _ _
  constructor
  · intro now hnow
    simp only [ResponseCache.get, hfind]
    rw [if_pos hnow]
  · intro now hnow
    refine ⟨?_, cacheFind_cacheDelete_self _ _, ?_⟩
    · simp only [ResponseCache.get, hfind]
      rw [if_neg (not_lt.mpr hnow)]
    · intro now2
      simp only [ResponseCache.get, cacheFind_cacheDelete_self]

/-- Witness for `C7_cache_ttl`: a concrete store/hit/expire/miss run with
`ttl_seconds = 300`. -/
theorem C7_cache_ttl_witness :
    ((10 : ℚ) - 0 < 300) ∧ ((300 : ℚ) ≤ 400 - 0) ∧
    (ResponseCache.get 300 (ResponseCache.set 100 [] "p" "r" "" 0) "p" "" 10 =
      (some "r", ResponseCache.set 100 [] "p" "r" "" 0)) ∧
    (ResponseCache.get 300 (ResponseCache.set 100 [] "p" "r" "" 0) "p" "" 400 =
      (none, cacheDelete (ResponseCache.set 100 [] "p" "r" "" 0)
        (ResponseCache.make_key "p" ""))) :=
  ⟨by norm_num, by norm_num,
    (C7_cache_ttl 100 300 [] "p" "" "r" 0).1 10 (by norm_num),
    ((C7_cache_ttl 100 300 [] "p" "" "r" 0).2 400 (by norm_num)).1⟩

theorem runCache_length_le {max_size : ℕ} (ttl_seconds : ℚ)
    (hpos : 1 ≤ max_size) :
    ∀ (ops : List CacheOp) (c : Cache), c.length ≤ max_size →
      (runCache max_size ttl_seconds c ops).length ≤ max_size := by
  intro ops
  induction ops with
  | nil => intro c h; exact h
  | cons op ops ih =>
    intro c h
    refine ih _ ?_
    cases op with
    | get prompt provider now =>
      simp only [applyCacheOp, ResponseCache.get]
      cases hf : cacheFind c (ResponseCache.make_key prompt provider) with
      | none => simpa using h
      | some pr =>
        obtain ⟨resp, ts⟩ := pr
        simp only [hf]
        by_cases hlt : now - ts < ttl_seconds
        · rw [if_pos hlt]
          exact h
        · rw [if_neg hlt]
          exact le_trans (cacheDelete_length_le c _) h
    | set prompt response provider now =>
      simp only [applyCacheOp, ResponseCache.set]
      by_cases hcap : max_size ≤ c.length
      · rw [if_pos hcap]
        have hne : c ≠ [] := by
          intro hc
          rw [hc] at hcap
          simp at hcap
          omega
        obtain ⟨e, he⟩ := oldestEntry_isSome hne
        simp only [he]
        have h1 : (cacheDelete c e.key).length < c.length :=
          cacheDelete_length_lt (oldestEntry_mem he)
        have h2 := dictInsert_length_le (cacheDelete c e.key)
          (ResponseCache.make_key prompt provider) response now
        omega
      · rw [if_neg hcap]
        have h2 := dictInsert_length_le c
          (ResponseCache.make_key prompt provider) response now
        omega

/-- C8: starting from the empty cache, no sequence of `get`/`set` operations
ever leaves more than `max_size ≥ 1` entries stored; and whenever `set` is
called while the cache holds `max_size` entries, the (first, in dict order)
entry with the globally oldest timestamp is evicted first and the new
binding is then inserted unconditionally, overwriting any existing binding
of the same key. -/
theorem C8_cache_capacity (max_size : ℕ) (ttl_seconds : ℚ)
    (hpos : 1 ≤ max_size) :
    (∀ ops : List CacheOp,
      (runCache max_size ttl_seconds [] ops).length ≤ max_size) ∧
    (∀ (c : Cache) (prompt response provider : String) (now : ℚ),
      c.length = max_size →
      ∃ e, oldestEntry c = some e ∧ e ∈ c ∧
        (∀ x ∈ c, e.timestamp ≤ x.timestamp) ∧
        ResponseCache.set max_size c prompt response provider now =
          dictInsert (cacheDelete c e.key)
            (ResponseCache.make_key prompt provider) response now) := by
  constructor
  · intro ops
    exact runCache_length_le ttl_seconds hpos ops [] (by simp)
  · intro c prompt response provider now hfull
    have hne : c ≠ [] := by
      intro hc
      rw [hc] at hfull
      simp at hfull
      omega
    obtain ⟨e, he⟩ := oldestEntry_isSome hne
    refine ⟨e, he, oldestEntry_mem he, oldestEntry_min he, ?_⟩
    simp only [ResponseCache.set, hfull, le_refl, if_pos, he]

/-- Witness for `C8_cache_capacity`: two inserts into a capacity-1 cache
leave one entry. -/
theorem C8_cache_capacity_witness :
    (1 : ℕ) ≤ 1 ∧
    (runCache 1 300 []
      [CacheOp.set "p" "r" "" 0, CacheOp.set "q" "s" "" 1]).length ≤ 1 :=
  ⟨by decide, (C8_cache_capacity 1 300 (by decide)).1
    [CacheOp.set "p" "r" "" 0, CacheOp.set "q" "s" "" 1]⟩

/-! ## ConversationStore lemmas (C9) -/

theorem dequePush_length_le_always {α : Type} (maxlen : ℕ) (l : List α)
    (x : α) : (dequePush maxlen l x).length ≤ maxlen ∨
      (dequePush maxlen l x).length = l.length + 1 ∧ l.length + 1 ≤ maxlen := by
  unfold dequePush
  by_cases h : maxlen < (l ++ [x]).length
  · left
    simp only [h, if_true, List.length_drop]
    omega
  · right
    rw [if_neg h]
    simp at h ⊢
    omega

/-- A deque push never leaves more than `maxlen` elements. -/
theorem dequePush_length_bound {α : Type} (maxlen : ℕ) (l : List α) (x : α) :
    (dequePush maxlen l x).length ≤ maxlen := by
  rcases dequePush_length_le_always maxlen l x with h | ⟨h1, h2⟩
  · exact h
  · omega

theorem storeFind_storeInsert_self (s : ConvStore) (sid : String)
    (turns : List TurnEntry) :
    storeFind (storeInsert s sid turns) sid = some turns := by
  induction s with
  | nil => simp [storeInsert, storeFind]
  | cons e rest ih =>
    by_cases h : e.1 == sid
    · simp [storeInsert, h, storeFind]
    · simp [storeInsert, h, storeFind, ih]

theorem storeInsert_mem {s : ConvStore} {sid : String}
    {turns : List TurnEntry} :
    ∀ e ∈ storeInsert s sid turns, e = (sid, turns) ∨ e ∈ s := by
  induction s with
  | nil =>
    intro e he
    simp [storeInsert] at he
    exact Or.inl he
  | cons a rest ih =>
    intro e he
    by_cases h : a.1 == sid
    · simp only [storeInsert, h, if_true] at he
      rcases List.mem_cons.mp he with rfl | hmem
      · exact Or.inl rfl
      · exact Or.inr (List.mem_cons_of_mem a hmem)
    · simp only [storeInsert, h, Bool.false_eq_true, if_false] at he
      rcases List.mem_cons.mp he with rfl | hmem
      · exact Or.inr (List.mem_cons_self _ _)
      · rcases ih e hmem with h2 | h2
        · exact Or.inl h2
        · exact Or.inr (List.mem_cons_of_mem a h2)

theorem purge_expired_mem {ttl_seconds now : ℚ} {s : ConvStore} :
    ∀ e ∈ ConversationStore.purge_expired ttl_seconds now s, e ∈ s :=
  fun _e he => List.mem_of_mem_filter he

theorem applyConvOp_bounded {max_messages : ℕ} {ttl_seconds : ℚ}
    {s : ConvStore} (op : ConvOp)
    (h : ∀ e ∈ s, e.2.length ≤ max_messages) :
    ∀ e ∈ applyConvOp max_messages ttl_seconds s op,
      e.2.length ≤ max_messages := by
  cases op with
  | add sid role content now =>
    intro e he
    simp only [applyConvOp, ConversationStore.add] at he
    rcases storeInsert_mem e he with rfl | hmem
    · exact dequePush_length_bound _ _ _
    · exact h e (purge_expired_mem e hmem)
  | get sid now =>
    intro e he
    simp only [applyConvOp, ConversationStore.get] at he
    rcases hf : storeFind
        (ConversationStore.purge_expired ttl_seconds now s) sid with _ | turns <;>
      rw [hf] at he <;>
      exact h e (purge_expired_mem e he)

theorem runConv_bounded (max_messages : ℕ) (ttl_seconds : ℚ) :
    ∀ (ops : List ConvOp) (s : ConvStore),
      (∀ e ∈ s, e.2.length ≤ max_messages) →
      ∀ e ∈ runConv max_messages ttl_seconds s ops,
        e.2.length ≤ max_messages := by
  intro ops
  induction ops with
  | nil => intro s h; exact h
  | cons op ops ih =>
    intro s h
    exact ih _ (applyConvOp_bounded op h)

/-- C9: starting from the empty store, no sequence of `add`/`get` operations
ever leaves any session with more than `max_messages` stored turns; adding a
turn to a session already holding `max_messages ≥ 1` turns drops exactly the
single oldest turn and appends the new one (preserving the order of the
remaining turns); and `get` returns exactly the stored turn sequence, in
stored (oldest-first) order. -/
theorem C9_conversation_bounded (max_messages : ℕ) (ttl_seconds : ℚ) :
    (∀ ops : List ConvOp,
      ∀ e ∈ runConv max_messages ttl_seconds [] ops,
        e.2.length ≤ max_messages) ∧
    (∀ (s : ConvStore) (sid role content : String) (now : ℚ)
        (turns : List TurnEntry),
      storeFind (ConversationStore.purge_expired ttl_seconds now s) sid =
        some turns →
      turns.length = max_messages → 1 ≤ max_messages →
      storeFind
          (ConversationStore.add max_messages ttl_seconds s sid role content now)
          sid =
        some (turns.tail ++ [⟨role, content, now⟩])) ∧
    (∀ (s : ConvStore) (sid : String) (now : ℚ),
      (ConversationStore.get ttl_seconds s sid now).1 =
        ((storeFind (ConversationStore.purge_expired ttl_seconds now s)
            sid).getD []).map (fun t => (t.role, t.content))) := by
  refine ⟨fun ops => runConv_bounded max_messages ttl_seconds ops [] (by simp),
    fun s sid role content now turns hfind hfull hpos => ?_,
    fun s sid now => ?_⟩
  · simp only [ConversationStore.add, hfind, Option.getD_some]
    rw [dequePush_full _ hfull hpos]
    exact storeFind_storeInsert_self _ _ _
  · simp only [ConversationStore.get]
    rcases hf : storeFind
        (ConversationStore.purge_expired ttl_seconds now s) sid with _ | turns
    · simp
    · simp

/-- Witness for `C9_conversation_bounded`: adding to a full one-turn session
drops the old turn and keeps the new one. -/
theorem C9_conversation_bounded_witness :
    (storeFind
        (ConversationStore.purge_expired 3600 5
          [("s", [⟨"user", "hi", 0⟩])]) "s" = some [⟨"user", "hi", 0⟩]) ∧
    ([(⟨"user", "hi", 0⟩ : TurnEntry)].length = 1) ∧ (1 ≤ 1) ∧
    storeFind
        (ConversationStore.add 1 3600 [("s", [⟨"user", "hi", 0⟩])] "s"
          "assistant" "ok" 5) "s" =
      some ([(⟨"user", "hi", 0⟩ : TurnEntry)].tail ++ [⟨"assistant", "ok", 5⟩]) := by
  have h1 : storeFind
      (ConversationStore.purge_expired 3600 5
        [("s", [⟨"user", "hi", 0⟩])]) "s" = some [⟨"user", "hi", 0⟩] := by
    norm_num [ConversationStore.purge_expired, storeFind]
  exact ⟨h1, rfl, le_refl 1,
    (C9_conversation_bounded 1 3600).2.1 [("s", [⟨"user", "hi", 0⟩])] "s"
      "assistant" "ok" 5 [⟨"user", "hi", 0⟩] h1 rfl (le_refl 1)⟩

/-! ## RateLimiter lemmas (C5) -/

/-- On a sorted timestamp deque, the front-popping loop of the code
(`dropWhile (· < c)`) removes exactly the too-old entries: it equals
`filter (c ≤ ·)`. -/
theorem dropWhile_lt_eq_filter (c : ℚ) :
    ∀ {l : List ℚ}, l.Sorted (· ≤ ·) →
      l.dropWhile (fun t => decide (t < c)) =
        l.filter (fun t => decide (c ≤ t)) := by
  intro l
  induction l with
  | nil => intro _; rfl
  | cons a t ih =>
    intro hs
    rw [List.sorted_cons] at hs
    by_cases ha : a < c
    · rw [List.dropWhile_cons_of_pos (by simpa using ha),
        List.filter_cons_of_neg (by simpa using not_le.mpr ha)]
      exact ih hs.2
    · rw [List.dropWhile_cons_of_neg (by simpa using ha),
        List.filter_cons_of_pos (by simpa using not_lt.mp ha)]
      congr 1
      symm
      rw [List.filter_eq_self]
      intro b hb
      simpa using le_trans (not_lt.mp ha) (hs.1 b hb)

theorem length_filter_mono {α : Type} {p q : α → Bool} :
    ∀ (l : List α), (∀ a ∈ l, p a = true → q a = true) →
      (l.filter p).length ≤ (l.filter q).length := by
  intro l
  induction l with
  | nil => intro _; exact le_refl 0
  | cons a t ih =>
    intro h
    have ht := fun b hb => h b (List.mem_cons_of_mem a hb)
    by_cases hp : p a = true
    · rw [List.filter_cons_of_pos hp,
        List.filter_cons_of_pos (h a (List.mem_cons_self a t) hp)]
      simpa using ih ht
    · rw [List.filter_cons_of_neg (by simpa using hp)]
      by_cases hq : q a = true
      · rw [List.filter_cons_of_pos hq]
        exact le_trans (ih ht) (by simp)
      · rw [List.filter_cons_of_neg (by simpa using hq)]
        exact ih ht

theorem admits_cons_true (t : ℚ) (trace : List (ℚ × Bool)) :
    admits ((t, true) :: trace) = t :: admits trace := by
  simp [admits]

theorem admits_cons_false (t : ℚ) (trace : List (ℚ × Bool)) :
    admits ((t, false) :: trace) = admits trace := by
  simp [admits]

/-- Lemma: `admittedIn` is the window count of the admitted-times list. -/
theorem admittedIn_eq (trace : List (ℚ × Bool)) (T : ℚ) :
    admittedIn trace T =
      ((admits trace).filter
        (fun x => decide (T - 60 ≤ x) && decide (x ≤ T))).length := by
  induction trace with
  | nil => rfl
  | cons p rest ih =>
    obtain ⟨t, b⟩ := p
    cases b
    · simp only [admittedIn, List.filter_cons, Bool.false_and, if_false,
        admits_cons_false]
      exact ih
    · simp only [admittedIn, List.filter_cons, Bool.true_and,
        admits_cons_true]
      by_cases hw : (decide (T - 60 ≤ t) && decide (t ≤ T)) = true
      · simp only [hw, if_true, List.length_cons]
        simpa [admittedIn] using ih
      · simp only [Bool.not_eq_true] at hw
        simp only [hw, Bool.false_eq_true, if_false]
        simpa [admittedIn] using ih

/-- After the front-popping loop, the state left by a call at time `t` is
exactly the admitted times not older than `t - 60`. -/
theorem kept_eq_filter (t cut : ℚ) (A : List ℚ)
    (hA : A.Sorted (· ≤ ·)) (hcut : cut ≤ t - 60) :
    (A.filter (fun x => decide (cut ≤ x))).dropWhile
        (fun x => decide (x < t - 60)) =
      A.filter (fun x => decide (t - 60 ≤ x)) := by
  rw [dropWhile_lt_eq_filter (t - 60) (hA.filter _), List.filter_filter]
  apply List.filter_congr
  intro a ha
  by_cases h : t - 60 ≤ a
  · simp [h, le_trans hcut h]
  · simp [h]

/-- Main sliding-window invariant: starting from a state that is exactly the
already-admitted times not older than `cut`, running the limiter over any
sorted sequence of further calls keeps the total number of admitted times in
every window `[T - 60, T]` at or below `k`. -/
theorem runLimiter_window_bound (k : ℕ) :
    ∀ (calls A : List ℚ) (cut : ℚ),
      calls.Sorted (· ≤ ·) →
      A.Sorted (· ≤ ·) →
      (∀ a ∈ A, ∀ t ∈ calls, a ≤ t) →
      (∀ t ∈ calls, cut ≤ t - 60) →
      (∀ T, (A.filter
        (fun x => decide (T - 60 ≤ x) && decide (x ≤ T))).length ≤ k) →
      ∀ T, ((A ++ admits (runLimiter k
            (A.filter (fun x => decide (cut ≤ x))) calls).1).filter
          (fun x => decide (T - 60 ≤ x) && decide (x ≤ T))).length ≤ k := by
  intro calls
  induction calls with
  | nil =>
    intro A cut _ _ _ _ hwin T
    simpa [runLimiter, admits] using hwin T
  | cons t ts ih =>
    intro A cut hcalls hA hfuture hcut hwin T
    rw [List.sorted_cons] at hcalls
    have hkept : (A.filter (fun x => decide (cut ≤ x))).dropWhile
        (fun x => decide (x < t - 60)) =
        A.filter (fun x => decide (t - 60 ≤ x)) :=
      kept_eq_filter t cut A hA (hcut t (List.mem_cons_self t ts))
    have hcut2 : ∀ u ∈ ts, t - 60 ≤ u - 60 := by
      intro u hu
      have := hcalls.1 u hu
      linarith
    simp only [runLimiter, RateLimiter.is_allowed, hkept]
    by_cases hadm : (A.filter (fun x => decide (t - 60 ≤ x))).length < k
    · rw [if_pos hadm]
      have hst : A.filter (fun x => decide (t - 60 ≤ x)) ++ [t] =
          (A ++ [t]).filter (fun x => decide (t - 60 ≤ x)) := by
        rw [List.filter_append]
        congr 1
        simp [show t - 60 ≤ t by linarith]
      have hA2 : (A ++ [t]).Sorted (· ≤ ·) := by
        apply List.pairwise_append.mpr
        exact ⟨hA, List.sorted_singleton t, fun a ha b hb => by
          rw [List.mem_singleton] at hb
          rw [hb]
          exact hfuture a ha t (List.mem_cons_self t ts)⟩
      have hfuture2 : ∀ a ∈ A ++ [t], ∀ u ∈ ts, a ≤ u := by
        intro a ha u hu
        rcases List.mem_append.mp ha with h1 | h1
        · exact hfuture a h1 u (List.mem_cons_of_mem t hu)
        · rw [List.mem_singleton] at h1
          subst h1
          exact hcalls.1 u hu
      have hwin2 : ∀ U, ((A ++ [t]).filter
          (fun x => decide (U - 60 ≤ x) && decide (x ≤ U))).length ≤ k := by
        intro U
        rw [List.filter_append, List.length_append]
        by_cases htw : (decide (U - 60 ≤ t) && decide (t ≤ U)) = true
        · have hwlen : (A.filter
              (fun x => decide (U - 60 ≤ x) && decide (x ≤ U))).length ≤
              (A.filter (fun x => decide (t - 60 ≤ x))).length := by
            apply length_filter_mono
            intro a _ hwa
            simp only [Bool.and_eq_true, decide_eq_true_eq] at hwa htw
            simp only [decide_eq_true_eq]
            linarith [hwa.1, htw.2]
          simp only [List.filter_singleton, htw, Bool.cond_true,
            List.length_singleton]
          omega
        · simp only [Bool.not_eq_true] at htw
          simp only [List.filter_singleton, htw, Bool.cond_false,
            List.length_nil]
          simpa using hwin U
      have hmain := ih (A ++ [t]) (t - 60) hcalls.2 hA2 hfuture2 hcut2 hwin2 T
      rw [← hst] at hmain
      simp only [admits_cons_true]
      calc ((A ++ t :: admits (runLimiter k
              (A.filter (fun x => decide (t - 60 ≤ x)) ++ [t]) ts).1).filter
            (fun x => decide (T - 60 ≤ x) && decide (x ≤ T))).length
          = (((A ++ [t]) ++ admits (runLimiter k
              (A.filter (fun x => decide (t - 60 ≤ x)) ++ [t]) ts).1).filter
            (fun x => decide (T - 60 ≤ x) && decide (x ≤ T))).length := by
            rw [List.append_assoc, List.singleton_append]
        _ ≤ k := hmain
    · rw [if_neg hadm]
      have hfuture2 : ∀ a ∈ A, ∀ u ∈ ts, a ≤ u := fun a ha u hu =>
        hfuture a ha u (List.mem_cons_of_mem t hu)
      have hmain := ih A (t - 60) hcalls.2 hA hfuture2 hcut2 hwin T
      simp only [admits_cons_false]
      exact hmain

/-- C5: (a) for one client and any non-decreasing sequence of call times,
at most `calls_per_minute` calls return `true` within any trailing
60-second window `[T - 60, T]`; (b) each call first drops the stored
timestamps older than `now - 60`, then returns `true` and records `now` iff
the remaining count is below `calls_per_minute`, and returns `false`
without recording otherwise. -/
theorem C5_rate_limiter (calls_per_minute : ℕ) (calls : List ℚ)
    (hcalls : calls.Sorted (· ≤ ·)) :
    (∀ T, admittedIn (runLimiter calls_per_minute [] calls).1 T ≤
      calls_per_minute) ∧
    (∀ (now : ℚ) (window : List ℚ), window.Sorted (· ≤ ·) →
      RateLimiter.is_allowed calls_per_minute now window =
        (if (window.filter (fun t => decide (now - 60 ≤ t))).length <
            calls_per_minute
         then (true, window.filter (fun t => decide (now - 60 ≤ t)) ++ [now])
         else (false, window.filter (fun t => decide (now - 60 ≤ t))))) := by
  constructor
  · intro T
    rw [admittedIn_eq]
    cases calls with
    | nil => simp [runLimiter, admits]
    | cons t ts =>
      have hcut : ∀ u ∈ t :: ts, t - 60 ≤ u - 60 := by
        intro u hu
        rcases List.mem_cons.mp hu with rfl | hmem
        · exact le_refl _
        · have := (List.sorted_cons.mp hcalls).1 u hmem
          linarith
      have hmain := runLimiter_window_bound calls_per_minute (t :: ts) []
        (t - 60) hcalls (by simp) (by simp) hcut (by simp) T
      simpa using hmain
  · intro now window hw
    unfold RateLimiter.is_allowed
    rw [dropWhile_lt_eq_filter (now - 60) hw]

/-- Witness for `C5_rate_limiter`: four sorted calls against a limit of 2;
the window ending at time 30 holds at most 2 admitted calls. -/
theorem C5_rate_limiter_witness :
    (([0, 10, 30, 100] : List ℚ).Sorted (· ≤ ·)) ∧
    admittedIn (runLimiter 2 [] ([0, 10, 30, 100] : List ℚ)).1 30 ≤ 2 := by
  have hsorted : ([0, 10, 30, 100] : List ℚ).Sorted (· ≤ ·) := by
    norm_num [List.sorted_cons]
  exact ⟨hsorted, (C5_rate_limiter 2 [0, 10, 30, 100] hsorted).1 30⟩

/-! ## Dialogue handler cache-population lemmas (C6) -/

/-- C6 (counterexample): a validated, rate-limit-passing request whose
provider fails is answered by the canned fallback (`source = "fallback"`),
yet the cache — empty before the request — is still empty afterwards: the
fallback path of `DialogueView.post` never calls `response_cache.set`. -/
theorem C6_counterexample :
    ((DialogueView.post 100 50 300 3600 "gemini"
        { cache := [], metrics := MetricsTracker.init, conversations := [] }
        "Hello" "gemini" "sess" none "I hear you." 0 5).1.source
      = "fallback") ∧
    ((DialogueView.post 100 50 300 3600 "gemini"
        { cache := [], metrics := MetricsTracker.init, conversations := [] }
        "Hello" "gemini" "sess" none "I hear you." 0 5).2.cache = []) := by
  constructor <;> rfl

/-- C6 (amended): for every dialogue request that passes validation and rate
limiting and is not served from the cache, the handler populates the cache
with the `(prompt, response)` pair before returning iff the chosen provider
succeeded; when the provider fails and the canned fallback produces the
response, the response is tagged `"fallback"` and the cache is left exactly
as the lookup left it (no entry is added). -/
theorem C6_cache_population (max_size max_messages : ℕ)
    (cache_ttl conv_ttl : ℚ) (default_provider : String) (st : ServerState)
    (user_text provider session_id fallback_text : String)
    (outcome : Option String) (now : ℚ) (latency_ms : ℕ)
    (hmiss : (ResponseCache.get cache_ttl st.cache user_text
        (normalize_provider default_provider provider) now).1 = none) :
    (∀ text, outcome = some text →
      cacheFind
          (DialogueView.post max_size max_messages cache_ttl conv_ttl
            default_provider st user_text provider session_id outcome
            fallback_text now latency_ms).2.cache
          (ResponseCache.make_key user_text
            (normalize_provider default_provider provider)) =
        some (text, now)) ∧
    (outcome = none →
      (DialogueView.post max_size max_messages cache_ttl conv_ttl
          default_provider st user_text provider session_id outcome
          fallback_text now latency_ms).1.source = "fallback" ∧
      (DialogueView.post max_size max_messages cache_ttl conv_ttl
          default_provider st user_text provider session_id outcome
          fallback_text now latency_ms).2.cache =
        (ResponseCache.get cache_ttl st.cache user_text
          (normalize_provider default_provider provider) now).2) := by
  constructor
  · intro text htext
    subst htext
    simp only [DialogueView.post, get_llm_response, hmiss]
    simp only [ResponseCache.set]
    exact cacheFind_dictInsert_self _ _ _ _
  · intro hnone
    subst hnone
    constructor
    · simp only [DialogueView.post, get_llm_response, hmiss]
    · simp only [DialogueView.post, get_llm_response, hmiss]

/-- Witness for `C6_cache_population`: a cache miss on the empty cache with
a succeeding provider stores the pair; the values come out of the posted
state. -/
theorem C6_cache_population_witness :
    ((ResponseCache.get 300 ([] : Cache) "hi"
        (normalize_provider "gemini" "gemini") 0).1 = none) ∧
    cacheFind
        (DialogueView.post 100 50 300 3600 "gemini"
          { cache := [], metrics := MetricsTracker.init, conversations := [] }
          "hi" "gemini" "sess" (some "resp") "fb" 0 5).2.cache
        (ResponseCache.make_key "hi" (normalize_provider "gemini" "gemini")) =
      some ("resp", 0) :=
  ⟨by decide,
    (C6_cache_population 100 50 300 3600 "gemini"
      { cache := [], metrics := MetricsTracker.init, conversations := [] }
      "hi" "gemini" "sess" "fb" (some "resp") 0 5 (by decide)).1 "resp" rfl⟩

end AITherapist
